import Mathlib

/-!
Verification development for the pipen-filters repository.

Paths and extensions are modelled as `List Char` (Python `str`).  The core
extension-splitting algorithm (`_splitexit` in `filters.py`) delegates to
`os.path.splitext`; that standard-library function is embedded here
(`splitext`) following CPython `posixpath`/`genericpath._splitext`: find the
last separator and the last dot, and split at the last dot provided it lies
strictly inside the final path segment and is preceded (within the segment)
by at least one non-dot character.

The `while` loop of `_splitexit` (recursive mode) is embedded as a
fuel-indexed loop `stripLoop`; `splitexit` runs it with fuel
`length pth + 1`, and the development proves that any fuel above the path
length yields the same result (the loop terminates within that bound).
-/

namespace PipenFilters

/-- Index of the last occurrence of `c` in `l` (Python `str.rfind`),
`none` when `c` does not occur. -/
def rfindIdx (c : Char) : List Char → Option Nat
  | [] => none
  | a :: as =>
    match rfindIdx c as with
    | some i => some (i + 1)
    | none => if a = c then some 0 else none

/-- Embedding of CPython `genericpath._splitext` with `sep = '/'`,
no `altsep`, `extsep = '.'` (the POSIX `os.path.splitext`).  Splits at the
rightmost dot when that dot lies after the rightmost separator and the final
segment has a non-dot character before it; otherwise the extension is empty. -/
def splitext (p : List Char) : List Char × List Char :=
  match rfindIdx '.' p with
  | none => (p, [])
  | some dotIndex =>
    let filenameIndex : Nat :=
      match rfindIdx '/' p with
      | none => 0
      | some sepIndex => sepIndex + 1
    if decide (filenameIndex ≤ dotIndex) &&
        ((p.drop filenameIndex).take (dotIndex - filenameIndex)).any
          (fun x => x != '.') then
      (p.take dotIndex, p.drop dotIndex)
    else (p, [])

/-- The `ignore` argument of `_splitexit`: Python accepts a single string or
a list of strings (`if isinstance(ignore, str): ignore = [ignore]`). -/
inductive IgnoreArg where
  | str (s : List Char)
  | list (l : List (List Char))

/-- The list form of an `ignore` argument (a bare string becomes a
singleton list, as in the source). -/
def ignoreToList : IgnoreArg → List (List Char)
  | .str s => [s]
  | .list l => l

/-- Normalization of the ignore-list:
`ignore = ["." + ext.lstrip(".") for ext in ignore]`. -/
def normIgnore (ignore : List (List Char)) : List (List Char) :=
  ignore.map (fun e => '.' :: e.dropWhile (fun x => x == '.'))

/-- Fuel-indexed embedding of the `while last in ignore: pth, last =
path.splitext(pth)` loop of `_splitexit`. -/
def stripLoop (ig : List (List Char)) : Nat → List Char × List Char → List Char × List Char
  | 0, pl => pl
  | n + 1, pl =>
    if pl.2 ∈ ig then stripLoop ig n (splitext pl.1) else pl

/-- Pure iteration of `splitext` on the kept component, used to state what
the recursive stripping loop computes. -/
def stripIter : Nat → List Char × List Char → List Char × List Char
  | 0, pl => pl
  | n + 1, pl => stripIter n (splitext pl.1)

/-- Embedding of `_splitexit` from `filters.py`: normalize the ignore-list,
split once, then either check the last extension once (non-recursive) or
keep stripping while the extension is in the ignore-list (recursive; the
loop is run with fuel `length pth + 1`, which is proved sufficient). -/
def splitexit (pth : List Char) (ignore : IgnoreArg) (recursive : Bool) :
    List Char × List Char :=
  let ig := normIgnore (ignoreToList ignore)
  let pl := splitext pth
  if !recursive then
    if pl.2 ∈ ig then splitext pl.1 else pl
  else
    stripLoop ig (pth.length + 1) pl

/-- The `ext` filter: `_splitexit(pth, ignore, recursive)[1]`. -/
def ext (pth : List Char) (ignore : IgnoreArg) (recursive : Bool) : List Char :=
  (splitexit pth ignore recursive).2

/-- The `ext0` filter: `ext(pth, ignore, recursive)[1:]`. -/
def ext0 (pth : List Char) (ignore : IgnoreArg) (recursive : Bool) : List Char :=
  (ext pth ignore recursive).drop 1

/-- The `prefix` filter: `_splitexit(pth, ignore, recursive)[0]`.
(`prefix` is a reserved word in Lean, hence the name.) -/
def prefixFilter (pth : List Char) (ignore : IgnoreArg) (recursive : Bool) : List Char :=
  (splitexit pth ignore recursive).1

/-- Split a character list at every occurrence of `sep`, keeping empty
pieces (Python `str.split(sep)`); the result is always non-empty. -/
def splitOnChar (sep : Char) : List Char → List (List Char)
  | [] => [[]]
  | c :: cs =>
    match splitOnChar sep cs with
    | [] => [[c]]
    | s :: ss => if c = sep then [] :: s :: ss else (c :: s) :: ss

/-- Modelled from the `pathlib`/`panpath` dependency: a parsed pure POSIX
path, as used by `PanPath` for local paths.  `parts` never contain the
separator, are non-empty, and are never the single-dot component.  (Cloud
URI paths and the POSIX double-slash root special case are outside the
modelled scope; the repository code under verification is the same for
either path flavour.) -/
structure PurePath where
  absolute : Bool
  parts : List (List Char)
deriving DecidableEq, Repr

/-- Whether a raw path string starts with the separator. -/
def startsWithSep : List Char → Bool
  | c :: _ => c == '/'
  | [] => false

/-- Parsing of a raw path into components: split on the separator and drop
empty and single-dot components, as `pathlib` does. -/
def parseParts (p : List Char) : List (List Char) :=
  (splitOnChar '/' p).filter (fun s => !s.isEmpty && s != ['.'])

/-- Parse a raw path string into a `PurePath`. -/
def parsePath (p : List Char) : PurePath :=
  ⟨startsWithSep p, parseParts p⟩

/-- Join the components of a path with the separator. -/
def joinParts : List (List Char) → List Char
  | [] => []
  | [s] => s
  | s :: ss => s ++ '/' :: joinParts ss

/-- Render a `PurePath` back to a string (`str(...)` on a path object):
absolute paths get a leading separator, and an empty relative path renders
as the single-dot string. -/
def renderPath (q : PurePath) : List Char :=
  if q.absolute then '/' :: joinParts q.parts
  else if q.parts.isEmpty then ['.']
  else joinParts q.parts

/-- The `parent` property of a path object: drop the last component; the
root and the empty relative path are their own parent. -/
def parent (q : PurePath) : PurePath :=
  if q.parts.isEmpty then q else ⟨q.absolute, q.parts.dropLast⟩

/-- The `/` (joinpath) operation of a path object with a parsed right-hand
side: an absolute right-hand side replaces the left, otherwise the
components are appended. -/
def joinPath (q r : PurePath) : PurePath :=
  if r.absolute then r else ⟨q.absolute, q.parts ++ r.parts⟩

/-- The `basename` filter: `str(PanPath(pth).name)` — the last component of
the parsed path, or the empty string when there is none. -/
def basename (pth : List Char) : List Char :=
  ((parsePath pth).parts.getLast?).getD []

/-- The `dirname` filter: `str(PanPath(pth).parent)`. -/
def dirname (pth : List Char) : List Char :=
  renderPath (parent (parsePath pth))

/-- The `filename` filter: `basename(_splitexit(pth, ignore, recursive)[0])`. -/
def filename (pth : List Char) (ignore : IgnoreArg) (recursive : Bool) : List Char :=
  basename (splitexit pth ignore recursive).1

/-- The `filename0` filter:
`filename(pth, ignore, recursive).split(".")[0]`. -/
def filename0 (pth : List Char) (ignore : IgnoreArg) (recursive : Bool) : List Char :=
  (splitOnChar '.' (filename pth ignore recursive)).headD []

/-- The `prefix0` filter:
`str(PanPath(pth).parent / filename0(pth, ignore, recursive))`. -/
def prefix0 (pth : List Char) (ignore : IgnoreArg) (recursive : Bool) : List Char :=
  renderPath
    (joinPath (parent (parsePath pth))
      (parsePath (filename0 pth ignore recursive)))

/-- Well-formedness of parsed path components: what `parseParts` always
produces and what `renderPath` round-trips through `parsePath`. -/
def PathWF (q : PurePath) : Prop :=
  ∀ s ∈ q.parts, s ≠ [] ∧ s ≠ ['.'] ∧ '/' ∉ s

/-! ## The filter registry and the plugin lifecycle hook -/

/-- Python `dict` lookup on an association list (first match wins, which is
the semantics of any well-formed `dict` model). -/
def pyGet {V : Type} : List (String × V) → String → Option V
  | [], _ => none
  | p :: rest, k => if p.1 == k then some p.2 else pyGet rest k

/-- Python `{**b, **u}` dict merge: keys of `b` first with the values of
`u` where `u` overrides, then the keys of `u` not in `b`. -/
def pyMerge {V : Type} (b u : List (String × V)) : List (String × V) :=
  b.map (fun p => (p.1, (pyGet u p.1).getD p.2)) ++
    u.filter (fun p => (pyGet b p.1).isNone)

/-- The `template_opts` slots touched by the plugin: the `filters` and
`globals` mappings, each possibly absent. -/
structure TemplateOpts (V : Type) where
  filtersSlot : Option (List (String × V))
  globalsSlot : Option (List (String × V))

/-- The part of the host `pipen` configuration the plugin touches:
the possibly-absent `template_opts` mapping. -/
structure PipenConfig (V : Type) where
  template_opts : Option (TemplateOpts V)

/-- Embedding of `PipenFilters.on_init` from `__init__.py`: ensure
`template_opts`, `filters` and `globals` exist (empty if absent), then set
`filters = {**FILTERS, **filters}` and `globals = {**FILTERS, **globals}`. -/
def on_init {V : Type} (registry : List (String × V)) (c : PipenConfig V) :
    PipenConfig V :=
  let topts := c.template_opts.getD ⟨none, none⟩
  let fs := topts.filtersSlot.getD []
  let gs := topts.globalsSlot.getD []
  ⟨some ⟨some (pyMerge registry fs), some (pyMerge registry gs)⟩⟩

/-- The pre-existing `filters` mapping of a host configuration (empty when
the slot or `template_opts` itself is absent). -/
def origFilters {V : Type} (c : PipenConfig V) : List (String × V) :=
  (c.template_opts.getD ⟨none, none⟩).filtersSlot.getD []

/-- The pre-existing `globals` mapping of a host configuration (empty when
the slot or `template_opts` itself is absent). -/
def origGlobals {V : Type} (c : PipenConfig V) : List (String × V) :=
  (c.template_opts.getD ⟨none, none⟩).globalsSlot.getD []

/-! ## The generic config loader -/

/-- The environment of external parsing and filesystem operations `config`
delegates to (`simpleconf`, `diot`, the TOML/JSON parsers and the
`is_file` filesystem query). -/
structure ConfigEnv (D C : Type) where
  is_file : String → Bool
  load_one_dict : D → C
  load_one : String → Option String → C
  toml_loads_fn : String → C
  json_loads_fn : String → C
  diot : C → C

/-- The argument of `config`: a mapping (anything that is neither `Path`
nor `str`), a string, or a `Path` object. -/
inductive ConfigArg (D : Type) where
  | dict (d : D)
  | str (s : String)
  | file (p : String)

/-- Embedding of the `config` filter from `filters.py`: mappings go through
the dict loader; a string that is not an existing file requires an explicit
`"toml"` or `"json"` loader and otherwise raises `ValueError` (the error
carries the offending loader value); everything else goes through
`Config.load_one` with extension/loader dispatch. -/
def config {D C : Type} (env : ConfigEnv D C) (x : ConfigArg D)
    (loader : Option String) : Except (Option String) C :=
  match x with
  | .dict d => .ok (env.load_one_dict d)
  | .str s =>
    if env.is_file s then .ok (env.load_one s loader)
    else if loader = some "toml" then .ok (env.diot (env.toml_loads_fn s))
    else if loader = some "json" then .ok (env.diot (env.json_loads_fn s))
    else .error loader
  | .file p => .ok (env.load_one p loader)

/-! ## Globbing -/

/-- Embedding of the `glob` filter: the underlying
`PanPath(seg).glob("/".join(segs))` call is the external effectful part,
abstracted as `raw`; the filter sorts its string results. -/
def glob (raw : String → String → List String) (seg : String)
    (segs : List String) : List String :=
  List.insertionSort (fun a b => a ≤ b) (raw seg (String.intercalate "/" segs))

/-- Embedding of the `glob0` filter: `glob(*paths)[0]`, where indexing an
empty list raises (modelled as `none`). -/
def glob0 (raw : String → String → List String) (seg : String)
    (segs : List String) : Option String :=
  (glob raw seg segs).head?

/-! ## Quoting -/

/-- The backslash character. -/
def bsChar : Char := Char.ofNat 92

/-- The double-quote character. -/
def dqChar : Char := Char.ofNat 34

/-- The single-quote character. -/
def sqChar : Char := Char.ofNat 39

/-- The string `"None"`, `str(None)` in Python. -/
def noneWord : List Char := ['N', 'o', 'n', 'e']

/-- Lowercase hexadecimal digit. -/
def hexDigit (n : Nat) : Char :=
  if n < 10 then Char.ofNat (48 + n) else Char.ofNat (87 + n)

/-- Four-digit lowercase hexadecimal rendering. -/
def hex4 (n : Nat) : List Char :=
  [hexDigit (n / 4096 % 16), hexDigit (n / 256 % 16),
    hexDigit (n / 16 % 16), hexDigit (n % 16)]

/-- A `\uXXXX` escape. -/
def uEsc (n : Nat) : List Char := bsChar :: 'u' :: hex4 n

/-- Modelled from CPython `json.encoder.py_encode_basestring_ascii`:
escaping of one character of a JSON string with `ensure_ascii` (the
`json.dumps` default): short escapes for backslash, quote and the usual
control characters, `\uXXXX` (with surrogate pairs beyond the basic plane)
for everything outside printable ASCII. -/
def jsonEscapeChar (c : Char) : List Char :=
  if c = bsChar then [bsChar, bsChar]
  else if c = dqChar then [bsChar, dqChar]
  else if c = Char.ofNat 8 then [bsChar, 'b']
  else if c = Char.ofNat 12 then [bsChar, 'f']
  else if c = Char.ofNat 10 then [bsChar, 'n']
  else if c = Char.ofNat 13 then [bsChar, 'r']
  else if c = Char.ofNat 9 then [bsChar, 't']
  else if 32 ≤ c.toNat ∧ c.toNat ≤ 126 then [c]
  else if c.toNat < 65536 then uEsc c.toNat
  else uEsc (55296 + (c.toNat - 65536) / 1024) ++ uEsc (56320 + (c.toNat - 65536) % 1024)

/-- Modelled from CPython `json.dumps` applied to a single string value:
the escaped characters wrapped in double quotes. -/
def jsonDumpsStr (s : List Char) : List Char :=
  dqChar :: (s.map jsonEscapeChar).flatten ++ [dqChar]

/-- Python `str(var)` for the modelled values: `None` or a string. -/
def pyStrOpt : Option (List Char) → List Char
  | none => noneWord
  | some s => s

/-- Embedding of the `quote` filter: `None` (unless `quote_none`) gives the
bare word `None`; otherwise `json.dumps(str(var))`. -/
def quote (var : Option (List Char)) (quote_none : Bool) : List Char :=
  if var = none ∧ quote_none = false then noneWord
  else jsonDumpsStr (pyStrOpt var)

/-- The quote character CPython `repr` picks for a string: single quote,
unless the string contains a single quote and no double quote. -/
def reprQuote (s : List Char) : Char :=
  if sqChar ∈ s ∧ dqChar ∉ s then dqChar else sqChar

/-- A `\xXX` escape. -/
def xEsc (n : Nat) : List Char := [bsChar, 'x', hexDigit (n / 16 % 16), hexDigit (n % 16)]

/-- Modelled from CPython `str.__repr__`, one character: backslash and the
chosen quote are backslash-escaped, tab, newline and carriage return get
their short escapes, other ASCII control characters (and DEL) become
`\xXX`.  Non-ASCII characters are kept verbatim (CPython additionally
hex-escapes the non-printable ones; that `unicodedata`-dependent
distinction is outside the modelled scope, which covers ASCII and printable
input). -/
def reprEscapeChar (q : Char) (c : Char) : List Char :=
  if c = bsChar then [bsChar, bsChar]
  else if c = q then [bsChar, q]
  else if c = Char.ofNat 9 then [bsChar, 't']
  else if c = Char.ofNat 10 then [bsChar, 'n']
  else if c = Char.ofNat 13 then [bsChar, 'r']
  else if c.toNat < 32 ∨ c.toNat = 127 then xEsc c.toNat
  else [c]

/-- Modelled from CPython `repr` applied to a string: the escaped
characters wrapped in the chosen quote. -/
def pyReprStr (s : List Char) : List Char :=
  let q := reprQuote s
  q :: (s.map (reprEscapeChar q)).flatten ++ [q]

/-- Embedding of the `squote` filter: `None` (unless `quote_none`) gives
the bare word `None`; otherwise `repr(str(var))`. -/
def squote (var : Option (List Char)) (quote_none : Bool) : List Char :=
  if var = none ∧ quote_none = false then noneWord
  else pyReprStr (pyStrOpt var)

/-! ## Lemmas about `rfindIdx` and `splitext` -/

theorem rfindIdx_none_not_mem {c : Char} :
    ∀ {l : List Char}, rfindIdx c l = none → c ∉ l
  | [], _ => by simp
  | a :: as, h => by
    rw [rfindIdx] at h
    cases hr : rfindIdx c as with
    | some i => rw [hr] at h; simp at h
    | none =>
      rw [hr] at h
      by_cases hac : a = c
      · simp [hac] at h
      · intro hm
        rcases List.mem_cons.mp hm with h1 | h2
        · exact hac h1.symm
        · exact rfindIdx_none_not_mem hr h2

theorem rfindIdx_drop {c : Char} :
    ∀ {l : List Char} {d : Nat}, rfindIdx c l = some d →
      ∃ t, l.drop d = c :: t ∧ c ∉ t
  | [], d, h => by simp [rfindIdx] at h
  | a :: as, d, h => by
    rw [rfindIdx] at h
    cases hr : rfindIdx c as with
    | some i =>
      rw [hr] at h
      obtain rfl : i + 1 = d := by simpa using h
      simpa using rfindIdx_drop hr
    | none =>
      rw [hr] at h
      by_cases hac : a = c
      · obtain rfl : (0 : Nat) = d := by simpa [hac] using h
        exact ⟨as, by simp [hac], rfindIdx_none_not_mem hr⟩
      · simp [hac] at h

theorem splitext_append (p : List Char) : (splitext p).1 ++ (splitext p).2 = p := by
  rw [splitext]
  cases h : rfindIdx '.' p with
  | none => simp
  | some d =>
    simp only []
    split
    · simp
    · simp

theorem splitext_fst_length_le (p : List Char) : (splitext p).1.length ≤ p.length := by
  have h := congrArg List.length (splitext_append p)
  simp only [List.length_append] at h
  omega

theorem splitext_fst_length_lt {p : List Char} (h : (splitext p).2 ≠ []) :
    (splitext p).1.length < p.length := by
  have h1 := congrArg List.length (splitext_append p)
  simp only [List.length_append] at h1
  have h2 : 0 < (splitext p).2.length := List.length_pos.mpr h
  omega

theorem splitext_snd_shape (p : List Char) :
    (splitext p).2 = [] ∨ ∃ t, (splitext p).2 = '.' :: t ∧ '.' ∉ t := by
  rw [splitext]
  cases h : rfindIdx '.' p with
  | none => left; rfl
  | some d =>
    simp only []
    split
    · right
      obtain ⟨t, hd, hm⟩ := rfindIdx_drop h
      exact ⟨t, hd, hm⟩
    · left; rfl

/-! ## Lemmas about the ignore-list and the stripping loop -/

theorem head?_dropWhile_false (p : Char → Bool) :
    ∀ (l : List Char) {a : Char}, (l.dropWhile p).head? = some a → p a = false
  | [], a, h => by simp [List.dropWhile] at h
  | c :: cs, a, h => by
    by_cases hc : p c
    · rw [List.dropWhile_cons_of_pos hc] at h
      exact head?_dropWhile_false p cs h
    · rw [List.dropWhile_cons_of_neg hc] at h
      simp only [List.head?_cons, Option.some.injEq] at h
      subst h
      exact Bool.not_eq_true _ ▸ eq_false_of_ne_true hc

theorem mem_normIgnore_shape {ig : List (List Char)} {e : List Char}
    (h : e ∈ normIgnore ig) : ∃ t, e = '.' :: t ∧ t.head? ≠ some '.' := by
  rw [normIgnore] at h
  obtain ⟨x, _, rfl⟩ := List.mem_map.mp h
  refine ⟨_, rfl, ?_⟩
  intro hh
  have := head?_dropWhile_false (fun c => c == '.') x hh
  simp at this

theorem nil_not_mem_normIgnore {ig : List (List Char)} : [] ∉ normIgnore ig := by
  intro h
  obtain ⟨t, ht, _⟩ := mem_normIgnore_shape h
  simp at ht

theorem stripLoop_of_not_mem {ig : List (List Char)} {pl : List Char × List Char}
    (h : pl.2 ∉ ig) : ∀ n, stripLoop ig n pl = pl
  | 0 => rfl
  | n + 1 => by rw [stripLoop, if_neg h]

theorem stripLoop_eq_stripIter {ig : List (List Char)} (hig : [] ∉ ig) :
    ∀ (n : Nat) (pl : List Char × List Char), pl.1.length < n →
      ∃ k, stripLoop ig n pl = stripIter k pl ∧ (stripIter k pl).2 ∉ ig ∧
        ∀ j, j < k → (stripIter j pl).2 ∈ ig
  | 0, pl, h => absurd h (by omega)
  | n + 1, pl, h => by
    by_cases hm : pl.2 ∈ ig
    · rw [stripLoop, if_pos hm]
      by_cases h2 : (splitext pl.1).2 = []
      · refine ⟨1, ?_, ?_, ?_⟩
        · rw [stripLoop_of_not_mem (by rw [h2]; exact hig) n]
          rfl
        · show (splitext pl.1).2 ∉ ig
          rw [h2]; exact hig
        · intro j hj
          obtain rfl : j = 0 := by omega
          exact hm
      · have hlt : (splitext pl.1).1.length < n := by
          have := splitext_fst_length_lt h2
          omega
        obtain ⟨k, e, a, b⟩ := stripLoop_eq_stripIter hig n (splitext pl.1) hlt
        refine ⟨k + 1, e, a, ?_⟩
        intro j hj
        cases j with
        | zero => exact hm
        | succ j0 => exact b j0 (by omega)
    · exact ⟨0, by rw [stripLoop, if_neg hm]; rfl, hm, fun j hj => absurd hj (by omega)⟩

theorem stripIter_first_unique {ig : List (List Char)} {pl : List Char × List Char}
    {k1 k2 : Nat}
    (h1 : (stripIter k1 pl).2 ∉ ig) (h1m : ∀ j, j < k1 → (stripIter j pl).2 ∈ ig)
    (h2 : (stripIter k2 pl).2 ∉ ig) (h2m : ∀ j, j < k2 → (stripIter j pl).2 ∈ ig) :
    k1 = k2 := by
  rcases lt_trichotomy k1 k2 with h | h | h
  · exact absurd (h2m k1 h) h1
  · exact h
  · exact absurd (h1m k2 h) h2

theorem stripLoop_fuel_irrel {ig : List (List Char)} (hig : [] ∉ ig)
    {pl : List Char × List Char} {n m : Nat}
    (hn : pl.1.length < n) (hm : pl.1.length < m) :
    stripLoop ig n pl = stripLoop ig m pl := by
  obtain ⟨k1, e1, a1, b1⟩ := stripLoop_eq_stripIter hig n pl hn
  obtain ⟨k2, e2, a2, b2⟩ := stripLoop_eq_stripIter hig m pl hm
  rw [e1, e2, stripIter_first_unique a1 b1 a2 b2]

theorem stripLoop_shape (ig : List (List Char)) :
    ∀ (n : Nat) (pl : List Char × List Char),
      stripLoop ig n pl = pl ∨ ∃ q, stripLoop ig n pl = splitext q
  | 0, pl => Or.inl rfl
  | n + 1, pl => by
    by_cases hm : pl.2 ∈ ig
    · rw [stripLoop, if_pos hm]
      rcases stripLoop_shape ig n (splitext pl.1) with h | ⟨q, h⟩
      · exact Or.inr ⟨pl.1, h⟩
      · exact Or.inr ⟨q, h⟩
    · rw [stripLoop, if_neg hm]
      exact Or.inl rfl

theorem splitexit_recursive_eq (pth : List Char) (ignore : IgnoreArg) :
    splitexit pth ignore true =
      stripLoop (normIgnore (ignoreToList ignore)) (pth.length + 1) (splitext pth) := rfl

theorem splitexit_snd_shape (pth : List Char) (ignore : IgnoreArg) (recursive : Bool) :
    (splitexit pth ignore recursive).2 = [] ∨
      ∃ t, (splitexit pth ignore recursive).2 = '.' :: t ∧ '.' ∉ t := by
  cases recursive with
  | false =>
    rw [splitexit]
    simp only [Bool.not_false, if_pos]
    split
    · exact splitext_snd_shape (splitext pth).1
    · exact splitext_snd_shape pth
  | true =>
    rw [splitexit_recursive_eq]
    rcases stripLoop_shape (normIgnore (ignoreToList ignore)) (pth.length + 1)
        (splitext pth) with h | ⟨q, h⟩
    · rw [h]; exact splitext_snd_shape pth
    · rw [h]; exact splitext_snd_shape q

theorem dropWhile_dot_eq_self {t : List Char} (h : '.' ∉ t) :
    t.dropWhile (fun c => c == '.') = t := by
  cases t with
  | nil => rfl
  | cons c t0 =>
    have hc : (c == '.') = false := by
      simp only [beq_eq_false_iff_ne, ne_eq]
      intro hcd
      exact h (hcd ▸ List.mem_cons_self c t0)
    rw [List.dropWhile_cons_of_neg (by simp [hc])]

/-! ## Claim theorems for the extension-splitting algorithm -/

/-- C1: recursive extension stripping matches the spec's literal scenarios
(`ext("/a/b.txt.gz", [".gz","txt"], recursive=True) = ""` and
`ext("/a/b.x.txt.gz", [".gz","txt"], recursive=True) = ".x"`), and in
general the recursive mode repeatedly splits off the rightmost extension
while it is in the normalized ignore-list and returns at the first
extension not in the list: the result is the `k`-th iterate of `splitext`
where `k` is the first index whose extension is outside the ignore-list
(the empty extension of an extension-less path is never in the list, which
covers the no-further-extension case). -/
theorem c1_ext_recursive_strips_ignored :
    ext ("/a/b.txt.gz".toList) (.list [".gz".toList, "txt".toList]) true = [] ∧
    ext ("/a/b.x.txt.gz".toList) (.list [".gz".toList, "txt".toList]) true = ".x".toList ∧
    ∀ (pth : List Char) (ig : List (List Char)),
      ∃ k, splitexit pth (.list ig) true = stripIter k (splitext pth) ∧
        (stripIter k (splitext pth)).2 ∉ normIgnore ig ∧
        ∀ j, j < k → (stripIter j (splitext pth)).2 ∈ normIgnore ig := by
  refine ⟨by decide, by decide, ?_⟩
  intro pth ig
  have h : (splitext pth).1.length < pth.length + 1 := by
    have := splitext_fst_length_le pth
    omega
  obtain ⟨k, e, a, b⟩ :=
    stripLoop_eq_stripIter nil_not_mem_normIgnore (pth.length + 1) (splitext pth) h
  exact ⟨k, e, a, b⟩

/-- C1 witness: the general part of the claim applied at a concrete path
and ignore-list. -/
theorem c1_ext_recursive_strips_ignored_witness :
    ∃ k, splitexit ("/a/b.txt.gz".toList)
        (.list [".gz".toList, "txt".toList]) true =
        stripIter k (splitext ("/a/b.txt.gz".toList)) ∧
      (stripIter k (splitext ("/a/b.txt.gz".toList))).2 ∉
        normIgnore [".gz".toList, "txt".toList] ∧
      ∀ j, j < k → (stripIter j (splitext ("/a/b.txt.gz".toList))).2 ∈
        normIgnore [".gz".toList, "txt".toList] :=
  c1_ext_recursive_strips_ignored.2.2 ("/a/b.txt.gz".toList)
    [".gz".toList, "txt".toList]

/-- C2: in non-recursive mode, when the last extension is in the normalized
ignore-list the algorithm splits exactly once more and returns that second
split unchecked; otherwise it returns the first split unchanged.  Each
ignore-list entry is normalized to exactly one leading dot (the normalized
entry starts with a dot and its remainder does not), and membership is
plain list membership, i.e. exact string equality on the dotted
extension. -/
theorem c2_nonrecursive_single_extra_split :
    (∀ (pth : List Char) (ig : List (List Char)),
      ((splitext pth).2 ∈ normIgnore ig →
        splitexit pth (.list ig) false = splitext (splitext pth).1) ∧
      ((splitext pth).2 ∉ normIgnore ig →
        splitexit pth (.list ig) false = splitext pth)) ∧
    ∀ (ig : List (List Char)) (e : List Char), e ∈ normIgnore ig →
      ∃ t, e = '.' :: t ∧ t.head? ≠ some '.' := by
  refine ⟨fun pth ig => ⟨fun h => ?_, fun h => ?_⟩, fun ig e h => mem_normIgnore_shape h⟩
  · rw [splitexit]
    simp only [Bool.not_false, if_pos, ignoreToList]
    rw [if_pos h]
  · rw [splitexit]
    simp only [Bool.not_false, if_pos, ignoreToList]
    rw [if_neg h]

/-- C2 witness: the claim applied at a concrete path and ignore-list, in
the ignored-last-extension branch and for the normalization shape. -/
theorem c2_nonrecursive_single_extra_split_witness :
    splitexit ("/a/b.c.txt".toList) (.list [".txt".toList]) false =
      splitext (splitext ("/a/b.c.txt".toList)).1 ∧
    ∃ t, ".gz".toList = '.' :: t ∧ t.head? ≠ some '.' := by
  constructor
  · exact (c2_nonrecursive_single_extra_split.1 ("/a/b.c.txt".toList)
      [".txt".toList]).1 (by decide)
  · exact c2_nonrecursive_single_extra_split.2 ["..gz".toList] (".gz".toList)
      (by decide)

/-- C3: non-recursively, `prefix(p, I) ++ ext(p, I)` reassembles `p` when
the last extension is not in the normalized ignore-list; when it is, the
concatenation equals `p` with that single ignored last extension removed
(appending the ignored extension back restores `p`). -/
theorem c3_prefix_ext_concat (pth : List Char) (ig : List (List Char)) :
    ((splitext pth).2 ∉ normIgnore ig →
      prefixFilter pth (.list ig) false ++ ext pth (.list ig) false = pth) ∧
    ((splitext pth).2 ∈ normIgnore ig →
      prefixFilter pth (.list ig) false ++ ext pth (.list ig) false ++
        (splitext pth).2 = pth) := by
  constructor
  · intro h
    have e : splitexit pth (.list ig) false = splitext pth :=
      (c2_nonrecursive_single_extra_split.1 pth ig).2 h
    rw [prefixFilter, ext, e, splitext_append]
  · intro h
    have e : splitexit pth (.list ig) false = splitext (splitext pth).1 :=
      (c2_nonrecursive_single_extra_split.1 pth ig).1 h
    rw [prefixFilter, ext, e, splitext_append, splitext_append]

/-- C3 witness: both branches of the claim at concrete inputs. -/
theorem c3_prefix_ext_concat_witness :
    prefixFilter ("/a/b.c.txt".toList) (.list []) false ++
      ext ("/a/b.c.txt".toList) (.list []) false = "/a/b.c.txt".toList ∧
    prefixFilter ("/a/b.c.txt".toList) (.list [".txt".toList]) false ++
      ext ("/a/b.c.txt".toList) (.list [".txt".toList]) false ++
      (splitext ("/a/b.c.txt".toList)).2 = "/a/b.c.txt".toList :=
  ⟨(c3_prefix_ext_concat ("/a/b.c.txt".toList) []).1 (by decide),
    (c3_prefix_ext_concat ("/a/b.c.txt".toList) [".txt".toList]).2 (by decide)⟩

/-- C4: for every path, ignore argument and recursion flag, `ext0` equals
`ext` with all leading dots stripped (`lstrip(".")` is `dropWhile` on the
dot), and this agrees with the source's `ext(...)[1:]` because `ext` never
returns more than one leading dot: its result is empty or a dot followed by
a dot-free remainder. -/
theorem c4_ext0_strips_leading_dots (pth : List Char) (ignore : IgnoreArg)
    (recursive : Bool) :
    ext0 pth ignore recursive =
      (ext pth ignore recursive).dropWhile (fun c => c == '.') ∧
    (ext pth ignore recursive = [] ∨
      ∃ t, ext pth ignore recursive = '.' :: t ∧ '.' ∉ t) := by
  have hs := splitexit_snd_shape pth ignore recursive
  constructor
  · rcases hs with h | ⟨t, h, hm⟩
    · rw [ext0, ext, h]
      rfl
    · rw [ext0, ext, h]
      rw [List.dropWhile_cons_of_pos (by simp), dropWhile_dot_eq_self hm]
      rfl
  · exact hs

/-- C10: the recursive stripping loop of `_splitexit` terminates.  Every
normalized ignore entry starts with a dot (hence is non-empty, and in
particular the empty extension is never in the normalized list), each
loop iteration that continues strips a non-empty extension and strictly
shortens the kept path, and therefore any fuel above the path length
computes the loop's fixed answer: `stripLoop` with any such fuel equals
`splitexit` recursive (which uses fuel `length pth + 1`).  The bare-string
form of the ignore argument reduces to the singleton-list form. -/
theorem c10_recursive_termination :
    (∀ (ig : List (List Char)) (e : List Char), e ∈ normIgnore ig →
      ∃ t, e = '.' :: t) ∧
    (∀ (pth : List Char) (ig : List (List Char)) (n : Nat), pth.length < n →
      stripLoop (normIgnore ig) n (splitext pth) = splitexit pth (.list ig) true) ∧
    ∀ (pth s : List Char) (recursive : Bool),
      splitexit pth (.str s) recursive = splitexit pth (.list [s]) recursive := by
  refine ⟨fun ig e h => ?_, fun pth ig n hn => ?_, fun _ _ _ => rfl⟩
  · obtain ⟨t, ht, _⟩ := mem_normIgnore_shape h
    exact ⟨t, ht⟩
  · rw [splitexit_recursive_eq]
    have hle : (splitext pth).1.length ≤ pth.length := splitext_fst_length_le pth
    exact stripLoop_fuel_irrel nil_not_mem_normIgnore (by omega) (by omega)

/-- C10 witness: the fuel-independence part applied at a concrete path,
ignore-list and fuel. -/
theorem c10_recursive_termination_witness :
    stripLoop (normIgnore [".gz".toList, "txt".toList]) 100
        (splitext ("/a/b.txt.gz".toList)) =
      splitexit ("/a/b.txt.gz".toList) (.list [".gz".toList, "txt".toList]) true :=
  c10_recursive_termination.2.1 ("/a/b.txt.gz".toList)
    [".gz".toList, "txt".toList] 100 (by decide)

/-! ## Lemmas about the path model -/

theorem splitOnChar_ne_nil (sep : Char) : ∀ (l : List Char), splitOnChar sep l ≠ []
  | [] => by simp [splitOnChar]
  | c :: cs => by
    rw [splitOnChar]
    cases splitOnChar sep cs with
    | nil => simp
    | cons s ss =>
      by_cases hc : c = sep
      · simp [hc]
      · simp [hc]

theorem splitOnChar_cons_eq (sep c : Char) (cs : List Char) :
    splitOnChar sep (c :: cs) =
      if c = sep then [] :: splitOnChar sep cs
      else (c :: (splitOnChar sep cs).headD []) :: (splitOnChar sep cs).tail := by
  rw [splitOnChar]
  cases hr : splitOnChar sep cs with
  | nil => exact absurd hr (splitOnChar_ne_nil sep cs)
  | cons s ss =>
    dsimp only
    split <;> rfl

theorem not_mem_of_mem_splitOnChar (sep : Char) :
    ∀ (l s : List Char), s ∈ splitOnChar sep l → sep ∉ s
  | [], s, h => by
    simp [splitOnChar] at h
    subst h
    simp
  | c :: cs, s, h => by
    rw [splitOnChar_cons_eq] at h
    by_cases hc : c = sep
    · rw [if_pos hc] at h
      rcases List.mem_cons.mp h with rfl | h2
      · simp
      · exact not_mem_of_mem_splitOnChar sep cs s h2
    · rw [if_neg hc] at h
      cases hr : splitOnChar sep cs with
      | nil => exact absurd hr (splitOnChar_ne_nil sep cs)
      | cons s0 ss =>
        rw [hr] at h
        dsimp only [List.headD, List.tail] at h
        rcases List.mem_cons.mp h with rfl | h2
        · intro hm
          rcases List.mem_cons.mp hm with heq | hm2
          · exact hc heq.symm
          · exact not_mem_of_mem_splitOnChar sep cs s0
              (hr ▸ List.mem_cons_self s0 ss) hm2
        · exact not_mem_of_mem_splitOnChar sep cs s
            (hr ▸ List.mem_cons_of_mem s0 h2)

theorem splitOnChar_of_not_mem {sep : Char} :
    ∀ {p : List Char}, sep ∉ p → splitOnChar sep p = [p]
  | [], _ => rfl
  | c :: cs, h => by
    have hc : c ≠ sep := fun e => h (e ▸ List.mem_cons_self c cs)
    rw [splitOnChar_cons_eq, if_neg hc,
      splitOnChar_of_not_mem (fun hm => h (List.mem_cons_of_mem c hm))]
    rfl

theorem splitOnChar_append_sep {sep : Char} :
    ∀ {p : List Char}, sep ∉ p → ∀ (l : List Char),
      splitOnChar sep (p ++ sep :: l) = p :: splitOnChar sep l
  | [], _, l => by
    rw [List.nil_append, splitOnChar_cons_eq, if_pos rfl]
  | c :: cs, h, l => by
    have hc : c ≠ sep := fun e => h (e ▸ List.mem_cons_self c cs)
    rw [List.cons_append, splitOnChar_cons_eq, if_neg hc,
      splitOnChar_append_sep (fun hm => h (List.mem_cons_of_mem c hm)) l]
    rfl

theorem joinParts_single (s : List Char) : joinParts [s] = s := rfl

theorem joinParts_cons_cons (s s2 : List Char) (ps : List (List Char)) :
    joinParts (s :: s2 :: ps) = s ++ '/' :: joinParts (s2 :: ps) := rfl

theorem splitOnChar_joinParts :
    ∀ {ps : List (List Char)}, ps ≠ [] → (∀ s ∈ ps, '/' ∉ s) →
      splitOnChar '/' (joinParts ps) = ps
  | [], h, _ => absurd rfl h
  | [s], _, hs => by
    rw [joinParts_single, splitOnChar_of_not_mem (hs s (by simp))]
  | s :: s2 :: ps, _, hs => by
    rw [joinParts_cons_cons, splitOnChar_append_sep (hs s (by simp)) (joinParts (s2 :: ps)),
      splitOnChar_joinParts (by simp) (fun x hx => hs x (List.mem_cons_of_mem s hx))]

theorem parseParts_wf (p : List Char) :
    ∀ s ∈ parseParts p, s ≠ [] ∧ s ≠ ['.'] ∧ '/' ∉ s := by
  intro s hs
  rw [parseParts] at hs
  have h1 := List.mem_of_mem_filter hs
  have h2 := List.of_mem_filter hs
  refine ⟨?_, ?_, not_mem_of_mem_splitOnChar '/' p s h1⟩
  · intro he
    subst he
    simp at h2
  · intro he
    subst he
    simp at h2

theorem parsePath_wf (p : List Char) : PathWF (parsePath p) :=
  parseParts_wf p

theorem parent_wf {q : PurePath} (h : PathWF q) : PathWF (parent q) := by
  intro s hs
  rw [parent] at hs
  split at hs
  · exact h s hs
  · exact h s (List.dropLast_subset _ hs)

theorem filter_parts_eq_self {ps : List (List Char)}
    (h : ∀ s ∈ ps, s ≠ [] ∧ s ≠ ['.']) :
    ps.filter (fun s => !s.isEmpty && s != ['.']) = ps := by
  rw [List.filter_eq_self]
  intro s hs
  obtain ⟨h1, h2⟩ := h s hs
  simp [h1, h2]

theorem startsWithSep_append {s : List Char} (hne : s ≠ []) (t : List Char) :
    startsWithSep (s ++ t) = startsWithSep s := by
  cases s with
  | nil => exact absurd rfl hne
  | cons c cs => rfl

theorem startsWithSep_eq_false {s : List Char} (hne : s ≠ []) (hsep : '/' ∉ s) :
    startsWithSep s = false := by
  cases s with
  | nil => exact absurd rfl hne
  | cons c cs =>
    have hc : c ≠ '/' := fun e => hsep (e ▸ List.mem_cons_self c cs)
    simpa [startsWithSep] using hc

theorem joinParts_cons (s : List Char) (ps : List (List Char)) :
    ∃ t, joinParts (s :: ps) = s ++ t := by
  cases ps with
  | nil => exact ⟨[], by rw [joinParts]; simp⟩
  | cons s2 ps2 => exact ⟨'/' :: joinParts (s2 :: ps2), rfl⟩

theorem parseParts_sep_cons (l : List Char) : parseParts ('/' :: l) = parseParts l := by
  rw [parseParts, parseParts, splitOnChar_cons_eq, if_pos rfl, List.filter_cons]
  simp

theorem parsePath_renderPath {q : PurePath} (h : PathWF q) :
    parsePath (renderPath q) = q := by
  obtain ⟨abs, parts⟩ := q
  have hwf : ∀ s ∈ parts, s ≠ [] ∧ s ≠ ['.'] ∧ '/' ∉ s := h
  cases abs with
  | true =>
    rw [renderPath]
    simp only [if_pos]
    cases parts with
    | nil => decide
    | cons s ps =>
      rw [parsePath]
      have hparts : parseParts ('/' :: joinParts (s :: ps)) = s :: ps := by
        rw [parseParts_sep_cons, parseParts,
          splitOnChar_joinParts (by simp) (fun x hx => (hwf x hx).2.2),
          filter_parts_eq_self (fun x hx => ⟨(hwf x hx).1, (hwf x hx).2.1⟩)]
      rw [hparts]
      rfl
  | false =>
    rw [renderPath]
    simp only [Bool.false_eq_true, if_false]
    cases parts with
    | nil => decide
    | cons s ps =>
      simp only [List.isEmpty_cons, Bool.false_eq_true, if_false]
      rw [parsePath]
      have hne : s ≠ [] := (hwf s (by simp)).1
      have habs : startsWithSep (joinParts (s :: ps)) = false := by
        obtain ⟨t, ht⟩ := joinParts_cons s ps
        rw [ht, startsWithSep_append hne t]
        exact startsWithSep_eq_false hne (hwf s (by simp)).2.2
      have hparts : parseParts (joinParts (s :: ps)) = s :: ps := by
        rw [parseParts,
          splitOnChar_joinParts (by simp) (fun x hx => (hwf x hx).2.2),
          filter_parts_eq_self (fun x hx => ⟨(hwf x hx).1, (hwf x hx).2.1⟩)]
      rw [habs, hparts]

/-- C5: for every path, ignore argument and recursion flag, `prefix0`
equals the path's directory (the `dirname` filter, `str(parent)`) joined
with `filename0` of the path; and the spec's literal scenario
`prefix0("/a/b.c.d.e.txt", ignore=[".txt","c"], recursive=True) = "/a/b"`
holds. -/
theorem c5_prefix0_dirname_join_filename0 :
    (∀ (pth : List Char) (ignore : IgnoreArg) (recursive : Bool),
      prefix0 pth ignore recursive =
        renderPath (joinPath (parsePath (dirname pth))
          (parsePath (filename0 pth ignore recursive)))) ∧
    prefix0 ("/a/b.c.d.e.txt".toList) (.list [".txt".toList, "c".toList]) true =
      "/a/b".toList := by
  constructor
  · intro pth ignore recursive
    rw [prefix0, dirname, parsePath_renderPath (parent_wf (parsePath_wf pth))]
  · decide

/-! ## Lemmas about the dict merge of the lifecycle hook -/

theorem pyGet_append {V : Type} :
    ∀ (l1 l2 : List (String × V)) (k : String),
      pyGet (l1 ++ l2) k = ((pyGet l1 k).orElse (fun _ => pyGet l2 k))
  | [], l2, k => rfl
  | p :: rest, l2, k => by
    rw [List.cons_append, pyGet, pyGet]
    by_cases hp : p.1 == k
    · rw [if_pos hp, if_pos hp]
      rfl
    · rw [if_neg hp, if_neg hp]
      exact pyGet_append rest l2 k

theorem pyGet_map_override {V : Type} (u : List (String × V)) :
    ∀ (b : List (String × V)) (k : String),
      pyGet (b.map (fun p => (p.1, (pyGet u p.1).getD p.2))) k =
        (pyGet b k).map (fun v => (pyGet u k).getD v)
  | [], _ => rfl
  | p :: rest, k => by
    rw [List.map_cons, pyGet, pyGet]
    by_cases hp : p.1 == k
    · have hk : p.1 = k := by simpa using hp
      rw [if_pos hp, if_pos hp]
      simp [hk]
    · rw [if_neg hp, if_neg hp]
      exact pyGet_map_override u rest k

theorem pyGet_filter_of_none {V : Type} {b : List (String × V)} {k : String}
    (hb : pyGet b k = none) :
    ∀ (u : List (String × V)),
      pyGet (u.filter (fun p => (pyGet b p.1).isNone)) k = pyGet u k
  | [] => rfl
  | p :: rest => by
    rw [List.filter_cons]
    by_cases hp : p.1 == k
    · have hk : p.1 = k := by simpa using hp
      have hnone : (pyGet b p.1).isNone = true := by
        rw [hk, hb]
        rfl
      rw [if_pos hnone, pyGet, pyGet, if_pos hp, if_pos hp]
    · by_cases hf : (pyGet b p.1).isNone
      · rw [if_pos hf, pyGet, pyGet, if_neg hp, if_neg hp]
        exact pyGet_filter_of_none hb rest
      · rw [if_neg hf, pyGet, if_neg hp]
        exact pyGet_filter_of_none hb rest

theorem pyGet_pyMerge {V : Type} (b u : List (String × V)) (k : String) :
    pyGet (pyMerge b u) k = ((pyGet u k).orElse (fun _ => pyGet b k)) := by
  rw [pyMerge, pyGet_append, pyGet_map_override]
  cases hb : pyGet b k with
  | some v =>
    cases hu : pyGet u k with
    | some w => rfl
    | none => rfl
  | none =>
    show ((Option.map (fun v => (pyGet u k).getD v) none).orElse
        (fun _ => pyGet (u.filter (fun p => (pyGet b p.1).isNone)) k)) =
      ((pyGet u k).orElse (fun _ => none))
    show pyGet (u.filter (fun p => (pyGet b p.1).isNone)) k =
      ((pyGet u k).orElse (fun _ => none))
    rw [pyGet_filter_of_none hb u]
    cases pyGet u k with
    | some w => rfl
    | none => rfl

/-- C6: the `on_init` hook always produces present `filters` and `globals`
slots (creating them if absent), and merges the registry into both so that
a name already present in the host configuration keeps its existing value
while a registry name not already present is added with its default: the
lookup in each resulting slot is the original slot's lookup, falling back
to the registry's lookup. -/
theorem c6_on_init_merges_registry {V : Type} (registry : List (String × V))
    (c : PipenConfig V) (name : String) :
    ∃ fs gs,
      (on_init registry c).template_opts = some ⟨some fs, some gs⟩ ∧
      pyGet fs name =
        ((pyGet (origFilters c) name).orElse (fun _ => pyGet registry name)) ∧
      pyGet gs name =
        ((pyGet (origGlobals c) name).orElse (fun _ => pyGet registry name)) :=
  ⟨pyMerge registry (origFilters c), pyMerge registry (origGlobals c), rfl,
    pyGet_pyMerge registry (origFilters c) name,
    pyGet_pyMerge registry (origGlobals c) name⟩

/-- C7: for a string argument that is not an existing file, `config`
parses it as TOML when the loader is `"toml"`, as JSON when the loader is
`"json"`, and fails with a `ValueError` for every other loader value,
including the omitted (`None`) loader. -/
theorem c7_config_string_loader_dispatch {D C : Type} (env : ConfigEnv D C)
    (s : String) (loader : Option String) (hnf : env.is_file s = false) :
    (loader = some "toml" →
      config env (.str s) loader = .ok (env.diot (env.toml_loads_fn s))) ∧
    (loader = some "json" →
      config env (.str s) loader = .ok (env.diot (env.json_loads_fn s))) ∧
    (loader ≠ some "toml" → loader ≠ some "json" →
      config env (.str s) loader = .error loader) ∧
    config env (.str s) none = .error none := by
  refine ⟨fun h => ?_, fun h => ?_, fun h1 h2 => ?_, ?_⟩
  · rw [config, hnf]
    simp [h]
  · rw [config, hnf]
    simp [h]
  · rw [config, hnf]
    simp [h1, h2]
  · rw [config, hnf]
    simp

/-- C7 witness: the dispatch applied at a concrete environment, string and
loader in each branch. -/
theorem c7_config_string_loader_dispatch_witness :
    (config ⟨fun _ => false, fun _ => 0, fun _ _ => 0, fun _ => 1, fun _ => 2,
        fun c => c + 10⟩ (ConfigArg.str (D := Nat) "a = 1") (some "toml") =
      .ok 11) ∧
    (config ⟨fun _ => false, fun _ => 0, fun _ _ => 0, fun _ => 1, fun _ => 2,
        fun c => c + 10⟩ (ConfigArg.str (D := Nat) "a = 1") none =
      .error none) := by
  constructor
  · exact (c7_config_string_loader_dispatch
      ⟨fun _ => false, fun _ => 0, fun _ _ => 0, fun _ => 1, fun _ => 2,
        fun c => c + 10⟩ "a = 1" (some "toml") rfl).1 rfl
  · exact (c7_config_string_loader_dispatch
      ⟨fun _ => false, fun _ => 0, fun _ _ => 0, fun _ => 1, fun _ => 2,
        fun c => c + 10⟩ "a = 1" none rfl).2.2.2

/-- C8: for every underlying glob result, the `glob` filter returns a
sorted list of strings (sorted by the lexicographic string order), and
`glob0` is exactly the first element of `glob`'s result for the same
arguments, with no element to return (a failure in the source, an
out-of-range indexing) exactly when `glob` returns the empty list. -/
theorem c8_glob_sorted_and_glob0_first (raw : String → String → List String)
    (seg : String) (segs : List String) :
    List.Sorted (fun a b => a ≤ b) (glob raw seg segs) ∧
    glob0 raw seg segs = (glob raw seg segs).head? ∧
    (glob0 raw seg segs = none ↔ glob raw seg segs = []) := by
  refine ⟨List.sorted_insertionSort _ _, rfl, ?_⟩
  rw [glob0]
  exact List.head?_eq_none_iff

/-- C9: `quote(None)` gives the bare four-character word `None` while
`quote(None, quote_none=True)` gives `"None"` in double quotes; every
non-`None` value is rendered by `json.dumps` of its string form, which
wraps it in double quotes with JSON string escaping (first and last
character are always the double quote).  `squote` special-cases `None`
identically (bare `None`, or `'None'` in single quotes) and renders every
non-`None` value with `repr` of its string form, which wraps it in single
quotes whenever the string contains no single quote. -/
theorem c9_quote_squote_none_and_wrapping :
    quote none false = noneWord ∧
    quote none true = [dqChar, 'N', 'o', 'n', 'e', dqChar] ∧
    (∀ (s : List Char) (b : Bool), quote (some s) b = jsonDumpsStr s) ∧
    (∀ s : List Char, (jsonDumpsStr s).head? = some dqChar ∧
      (jsonDumpsStr s).getLast? = some dqChar) ∧
    squote none false = noneWord ∧
    squote none true = [sqChar, 'N', 'o', 'n', 'e', sqChar] ∧
    (∀ (s : List Char) (b : Bool), squote (some s) b = pyReprStr s) ∧
    ∀ s : List Char, sqChar ∉ s →
      (pyReprStr s).head? = some sqChar ∧ (pyReprStr s).getLast? = some sqChar := by
  refine ⟨by decide, by decide, fun s b => by simp [quote, pyStrOpt], fun s => ?_,
    by decide, by decide, fun s b => by simp [squote, pyStrOpt], fun s h => ?_⟩
  · constructor
    · rfl
    · rw [jsonDumpsStr, List.getLast?_concat]
  · have hq : reprQuote s = sqChar := by
      rw [reprQuote, if_neg]
      rintro ⟨h1, _⟩
      exact h h1
    constructor
    · show ((reprQuote s) :: (s.map (reprEscapeChar (reprQuote s))).flatten ++
        [reprQuote s]).head? = some sqChar
      rw [hq]
      rfl
    · show ((reprQuote s) :: (s.map (reprEscapeChar (reprQuote s))).flatten ++
        [reprQuote s]).getLast? = some sqChar
      rw [hq, List.getLast?_concat]

/-- C9 witness: the single-quote wrapping part applied at a concrete
apostrophe-free string. -/
theorem c9_quote_squote_none_and_wrapping_witness :
    sqChar ∉ ['a'] ∧
    (pyReprStr ['a']).head? = some sqChar ∧
    (pyReprStr ['a']).getLast? = some sqChar :=
  ⟨by decide,
    c9_quote_squote_none_and_wrapping.2.2.2.2.2.2.2 ['a'] (by decide)⟩

end PipenFilters
